import Mathlib

/-!
Verification development for the megashare streaming chunked-AEAD transfer
engine.  Byte strings are modelled as `List Nat` (each element a byte value),
JavaScript typed-array views as plain lists, and fallible JavaScript code as
`Option`/`Except` returning functions.  Platform primitives (WebCrypto
AES-GCM, HMAC-SHA256, base64) that the repository only calls are modelled by
concrete executable functions exhibiting the interface properties the code
relies on; everything else is translated directly from the source files.
-/

/-! ## Byte-level helpers -/

/-- Big-endian 32-bit encoding of a number into four bytes, as written by
`DataView.setUint32(offset, value, false)` (which coerces modulo 2^32). -/
def beBytes4 (n : Nat) : List Nat :=
  [n / 16777216 % 256, n / 65536 % 256, n / 256 % 256, n % 256]

/-- Big-endian 32-bit read of the first four bytes of a list, as read by
`DataView.getUint32(offset, false)` (the caller drops to the offset first). -/
def beUint32 (bytes : List Nat) : Nat :=
  bytes.getD 0 0 * 16777216 + bytes.getD 1 0 * 65536 +
    bytes.getD 2 0 * 256 + bytes.getD 3 0

/-- `Math.ceil(a / b)` for non-negative integers, as used for
`blocksPerChunk = Math.ceil(chunkSize / blockSize)`. -/
def jsCeilDiv (a b : Nat) : Nat := (a + b - 1) / b

/-! ## AES-GCM model

The repository performs all block encryption through WebCrypto
`subtle.encrypt`/`subtle.decrypt` with `{name: "AES-GCM", iv}`.  The cipher
itself is platform code; it is modelled here by an executable AEAD with the
interface shape the spec states (any key, 96-bit nonce intent, ciphertext =
masked plaintext plus a 16-byte authentication tag, decryption fails iff the
tag does not match). -/

/-- Model of the AES-GCM keystream: one byte per plaintext position, a pure
function of key, nonce and position. -/
def gcmKeystream (key iv : List Nat) (n : Nat) : List Nat :=
  (List.range n).map fun i =>
    ((key ++ iv).foldl (fun a b => (a * 131 + b + 1) % 16777213) 5 + 97 * i + 31) % 256

/-- Model of the AES-GCM authentication tag: 16 bytes, a pure function of
key, nonce and ciphertext. -/
def gcmTag (key iv ct : List Nat) : List Nat :=
  (List.range 16).map fun j =>
    ((key ++ iv ++ ct).foldl (fun a b => (a * 131 + b + 1) % 16777213) (j + 3)) % 256

/-- Model of WebCrypto `subtle.encrypt` for AES-GCM: ciphertext is the
keystream-masked plaintext with the 16-byte tag appended. -/
def aesGcmEncrypt (key iv pt : List Nat) : List Nat :=
  let ct := List.zipWith Nat.xor pt (gcmKeystream key iv pt.length)
  ct ++ gcmTag key iv ct

/-- Model of WebCrypto `subtle.decrypt` for AES-GCM: split off the final 16
bytes as the tag, recompute and compare it, and unmask on success; `none`
models the thrown `OperationError` on tag mismatch or truncated input. -/
def aesGcmDecrypt (key iv data : List Nat) : Option (List Nat) :=
  if data.length < 16 then none
  else if data.drop (data.length - 16) =
      gcmTag key iv (data.take (data.length - 16)) then
    some (List.zipWith Nat.xor (data.take (data.length - 16))
      (gcmKeystream key iv (data.take (data.length - 16)).length))
  else none

/-! ## BlockCodec (src/src/lib/crypto.js) -/

/-- `getChunkIV(baseIv, index)` from src/src/lib/crypto.js lines 64-70 (and
identically src/src/workers/crypto-worker.js lines 16-22): copy the base IV,
read bytes 8-11 as a big-endian 32-bit counter, and write back counter+index
(DataView coerces the sum modulo 2^32).  `getUint32(8)` requires at least 12
bytes; all callers pass 12-byte IVs. -/
def getChunkIV (baseIv : List Nat) (index : Nat) : List Nat :=
  baseIv.take 8 ++ beBytes4 ((beUint32 (baseIv.drop 8) + index) % 4294967296) ++
    baseIv.drop 12

/-- `encryptBlock(blockData, masterKey, baseIv, globalIndex)` from
src/src/lib/crypto.js lines 128-135: derive the per-block IV and encrypt. -/
def encryptBlock (blockData masterKey baseIv : List Nat) (globalIndex : Nat) :
    List Nat :=
  aesGcmEncrypt masterKey (getChunkIV baseIv globalIndex) blockData

/-- `decryptBlock(blockData, masterKey, baseIv, globalIndex)` from
src/src/lib/crypto.js lines 140-147: derive the per-block IV and decrypt;
`none` models the propagated WebCrypto `OperationError`. -/
def decryptBlock (blockData masterKey baseIv : List Nat) (globalIndex : Nat) :
    Option (List Nat) :=
  aesGcmDecrypt masterKey (getChunkIV baseIv globalIndex) blockData

/-! ## C1 and C2 theorems appear after all definitions; lemmas below. -/

/-- Errors surfaced by the download/decrypt paths, each constructor one
distinct JavaScript error identity. -/
inductive DecError where
  /-- `new Error(download failed: status)` thrown when `!res.ok`. -/
  | httpError (status : Nat)
  /-- The raw WebCrypto `OperationError` propagated out of `subtle.decrypt`. -/
  | cryptoOperationError
  /-- The wrapped error thrown by `decryptChunk`: chunk N decryption failed,
  data may have been tampered with or the key is wrong. -/
  | tamperOrWrongKey (chunkIndex : Nat)
  /-- A rejected `reader.read()` (mid-stream network failure). -/
  | streamError
  /-- The error thrown by `BufferAccumulator.consume` on underflow. -/
  | bufferConsumeError
  deriving DecidableEq

/-- Whether an error is the labelled tamper-or-wrong-key error. -/
def DecError.isTamperOrWrongKey : DecError → Bool
  | .tamperOrWrongKey _ => true
  | _ => false

/-- `decryptChunk(encryptedData, masterKey, baseIv, chunkIndex)` from
src/src/lib/crypto.js lines 295-313: the legacy whole-chunk path, which
catches any decryption failure and rethrows the tamper-or-wrong-key error. -/
def decryptChunk (encryptedData masterKey baseIv : List Nat) (chunkIndex : Nat) :
    Except DecError (List Nat) :=
  match aesGcmDecrypt masterKey (getChunkIV baseIv chunkIndex) encryptedData with
  | some pt => .ok pt
  | none => .error (.tamperOrWrongKey chunkIndex)

/-- The inner block-draining `while` loop of `StreamDecryptor.processStream`
(src/src/lib/crypto.js lines 251-288, the pending-buffer variant): while a
full encrypted block (blockSize + 16 tag bytes) is buffered, or the stream is
done and bytes remain, cut the next block, decrypt it at the running global
index and emit it.  `fuel` bounds the iteration count (each pass consumes at
least one byte, so `pending.length` fuel is always enough); decryption
failure propagates the raw WebCrypto error unwrapped. -/
def decDrain (key baseIv : List Nat) (blockSize gOff : Nat) :
    Nat → Bool → List Nat → Nat →
    Except DecError (List (List Nat) × List Nat × Nat)
  | 0, _, pending, bi => .ok ([], pending, bi)
  | fuel + 1, done, pending, bi =>
    if blockSize + 16 ≤ pending.length ∨ (done ∧ 0 < pending.length) then
      let isLast : Bool := done && decide (pending.length < blockSize + 16)
      let blockEnd := if isLast then pending.length else blockSize + 16
      let blockData := pending.take blockEnd
      let rest := pending.drop blockEnd
      match decryptBlock blockData key baseIv (gOff + bi) with
      | none => .error .cryptoOperationError
      | some pt =>
        if isLast then .ok ([pt], rest, bi + 1)
        else
          match decDrain key baseIv blockSize gOff fuel done rest (bi + 1) with
          | .error e => .error e
          | .ok (ps, p, b) => .ok (pt :: ps, p, b)
    else .ok ([], pending, bi)

/-- The outer read loop of `StreamDecryptor.processStream` lines 251-288:
each reader read appends to the pending buffer and drains full blocks; the
final `done` read drains the remainder as a last partial block. -/
def streamDecryptorGo (key baseIv : List Nat) (blockSize gOff : Nat) :
    List (List Nat) → List Nat → Nat → Except DecError (List (List Nat))
  | [], pending, bi =>
    match decDrain key baseIv blockSize gOff pending.length true pending bi with
    | .error e => .error e
    | .ok (ps, _, _) => .ok ps
  | r :: rs, pending, bi =>
    let pending' := pending ++ r
    match decDrain key baseIv blockSize gOff pending'.length false pending' bi with
    | .error e => .error e
    | .ok (ps, p, b) =>
      match streamDecryptorGo key baseIv blockSize gOff rs p b with
      | .error e => .error e
      | .ok ps2 => .ok (ps ++ ps2)

/-- `StreamDecryptor.processStream(url, ...)` from src/src/lib/crypto.js
lines 240-289: a non-ok fetch throws the download-failed error; otherwise the
body reads are consumed and decrypted block by block, the decrypted blocks
being the values handed to `onDecrypted`.  `resOk`/`status` model the fetch
response and `reads` the sequence of reader reads. -/
def streamDecryptorProcessStream (key baseIv : List Nat)
    (chunkIndex chunkSize blockSize : Nat) (resOk : Bool) (status : Nat)
    (reads : List (List Nat)) : Except DecError (List (List Nat)) :=
  if resOk = false then .error (.httpError status)
  else
    streamDecryptorGo key baseIv blockSize
      (chunkIndex * jsCeilDiv chunkSize blockSize) reads [] 0

/-! ## BufferAccumulator (src/src/lib/downloader.js utils variant, lines 293-403) -/

/-- The accumulator state: a queue of byte slices plus the running total
byte count, mirroring the two fields of the JavaScript class. -/
structure BufferAccumulator where
  chunks : List (List Nat)
  totalLength : Nat
  deriving DecidableEq

/-- A fresh accumulator (`constructor`). -/
def BufferAccumulator.empty : BufferAccumulator := ⟨[], 0⟩

/-- `append(chunk)`: push the slice and grow the total length. -/
def BufferAccumulator.append (acc : BufferAccumulator) (chunk : List Nat) :
    BufferAccumulator :=
  ⟨acc.chunks ++ [chunk], acc.totalLength + chunk.length⟩

/-- The `length` getter. -/
def BufferAccumulator.length (acc : BufferAccumulator) : Nat := acc.totalLength

/-- The merge `while` loop of `consume` (lines 347-360): repeatedly take
`min(chunk.byteLength, remaining)` bytes from the head slice, shifting the
slice out when fully taken, until `remaining` is exhausted or the queue is
empty.  Returns the bytes collected and the remaining queue. -/
def consumeLoop : List (List Nat) → Nat → List Nat × List (List Nat)
  | chunks, 0 => ([], chunks)
  | [], _ => ([], [])
  | c :: cs, r + 1 =>
    if c.length ≤ r + 1 then
      let rest := consumeLoop cs (r + 1 - c.length)
      (c ++ rest.1, rest.2)
    else
      (c.take (r + 1), c.drop (r + 1) :: cs)

/-- `consume(size)` (lines 320-364): error (`none`) when more bytes are
requested than buffered; fast path when the head slice covers the request;
otherwise the merge loop fills a fresh zero-initialised array of exactly
`size` bytes.  In every path `totalLength` drops by `size`. -/
def BufferAccumulator.consume (acc : BufferAccumulator) (size : Nat) :
    Option (List Nat × BufferAccumulator) :=
  if size > acc.totalLength then none
  else
    match acc.chunks with
    | first :: rest =>
      if size ≤ first.length then
        some (first.take size,
          ⟨if first.length = size then rest else first.drop size :: rest,
            acc.totalLength - size⟩)
      else
        let r := consumeLoop acc.chunks size
        some (r.1 ++ List.replicate (size - r.1.length) 0,
          ⟨r.2, acc.totalLength - size⟩)
    | [] =>
      let r := consumeLoop ([] : List (List Nat)) size
      some (r.1 ++ List.replicate (size - r.1.length) 0,
        ⟨r.2, acc.totalLength - size⟩)

/-- `consumeAll()` (lines 370-394): zero pending bytes yield an empty array
with the state untouched; a single queued slice is returned as-is; otherwise
all slices are merged in order.  The non-trivial paths clear the state.  The
merged array is written slice by slice at cumulative offsets into a buffer of
`totalLength` bytes, which equals the plain concatenation whenever
`totalLength` matches the queued bytes (the class invariant). -/
def BufferAccumulator.consumeAll (acc : BufferAccumulator) :
    List Nat × BufferAccumulator :=
  if acc.totalLength = 0 then ([], acc)
  else
    match acc.chunks with
    | [c] => (c, ⟨[], 0⟩)
    | cs => (cs.flatten, ⟨[], 0⟩)

/-- `clear()` (lines 399-402). -/
def BufferAccumulator.clear (_ : BufferAccumulator) : BufferAccumulator := ⟨[], 0⟩

/-- The class invariant: `totalLength` counts exactly the queued bytes. -/
def BufferAccumulator.Inv (acc : BufferAccumulator) : Prop :=
  acc.totalLength = (acc.chunks.map List.length).sum

/-- Build an accumulator by appending a sequence of input slices in order. -/
def appendAll (inputs : List (List Nat)) : BufferAccumulator :=
  inputs.foldl BufferAccumulator.append BufferAccumulator.empty

/-- Run a sequence of `consume` calls, collecting the returned arrays. -/
def runConsumes (acc : BufferAccumulator) :
    List Nat → Option (List (List Nat) × BufferAccumulator)
  | [] => some ([], acc)
  | s :: ss =>
    match acc.consume s with
    | none => none
    | some (out, acc') =>
      match runConsumes acc' ss with
      | none => none
      | some (outs, acc2) => some (out :: outs, acc2)

/-! ## Worker-offloaded encryptor and decryptor (src/src/lib/crypto-worker-streams.js)
and the BufferAccumulator-based main-thread StreamDecryptor (crypto.js lines
554-613).  Each `processStream` is modelled together with the trace of
resource events it performs, so cleanup behaviour is visible. -/

/-- Resource events performed by a `processStream` invocation. -/
inductive CleanEv where
  /-- `stream.getReader()` or `res.body.getReader()`. -/
  | acquireReader
  /-- `worker.setMasterKey(keyId, ...)` caching the key in the worker. -/
  | setKey (keyId : Nat)
  /-- `reader.releaseLock()`. -/
  | releaseLock
  /-- `worker.releaseKey(keyId)` dropping the cached key. -/
  | releaseKey (keyId : Nat)
  deriving DecidableEq

/-- A `try { body } finally { cleanup }` block over an event-traced body:
the cleanup events run whether the body succeeded or threw. -/
def tryFinallyEv (body : Except DecError (List (List Nat)) × List CleanEv)
    (cleanup : List CleanEv) : Except DecError (List (List Nat)) × List CleanEv :=
  (body.1, body.2 ++ cleanup)

/-- The block-draining `while` loop of the BufferAccumulator-based
decryptors (crypto.js lines 586-609 and crypto-worker-streams.js lines
174-193): consume one full encrypted block, or the remainder when the
stream is done, and decrypt it at the running global index.  `fuel` bounds
iterations (each pass consumes at least one byte). -/
def decDrainAcc (key baseIv : List Nat) (blockSize gOff : Nat) :
    Nat → Bool → BufferAccumulator → Nat →
    Except DecError (List (List Nat) × BufferAccumulator × Nat)
  | 0, _, buf, bi => .ok ([], buf, bi)
  | fuel + 1, done, buf, bi =>
    if blockSize + 16 ≤ buf.length ∨ (done ∧ 0 < buf.length) then
      let isLast : Bool := done && decide (buf.length < blockSize + 16)
      match if isLast then some buf.consumeAll else buf.consume (blockSize + 16) with
      | none => .error .bufferConsumeError
      | some (blockData, buf2) =>
        match decryptBlock blockData key baseIv (gOff + bi) with
        | none => .error .cryptoOperationError
        | some pt =>
          if isLast then .ok ([pt], buf2, bi + 1)
          else
            match decDrainAcc key baseIv blockSize gOff fuel done buf2 (bi + 1) with
            | .error e => .error e
            | .ok (ps, b, i) => .ok (pt :: ps, b, i)
    else .ok ([], buf, bi)

/-- The block-draining `while` loop of the BufferAccumulator-based
encryptors (crypto.js lines 501-530 and crypto-worker-streams.js lines
68-90): consume one full plaintext block, or the remainder when the stream
is done, and encrypt it at the running global index. -/
def encDrainAcc (key baseIv : List Nat) (blockSize gOff : Nat) :
    Nat → Bool → BufferAccumulator → Nat →
    Except DecError (List (List Nat) × BufferAccumulator × Nat)
  | 0, _, buf, bi => .ok ([], buf, bi)
  | fuel + 1, done, buf, bi =>
    if blockSize ≤ buf.length ∨ (done ∧ 0 < buf.length) then
      let isLast : Bool := done && decide (buf.length < blockSize)
      match if isLast then some buf.consumeAll else buf.consume blockSize with
      | none => .error .bufferConsumeError
      | some (blockData, buf2) =>
        let enc := encryptBlock blockData key baseIv (gOff + bi)
        if isLast then .ok ([enc], buf2, bi + 1)
        else
          match encDrainAcc key baseIv blockSize gOff fuel done buf2 (bi + 1) with
          | .error e => .error e
          | .ok (ps, b, i) => .ok (enc :: ps, b, i)
    else .ok ([], buf, bi)

/-- The read loop of the BufferAccumulator-based decryptors: each read
appends and drains; a rejected read (`none`) propagates the stream error;
the final done read drains the remainder. -/
def accDecGo (key baseIv : List Nat) (blockSize gOff : Nat) :
    List (Option (List Nat)) → BufferAccumulator → Nat →
    Except DecError (List (List Nat))
  | [], buf, bi =>
    match decDrainAcc key baseIv blockSize gOff buf.length true buf bi with
    | .error e => .error e
    | .ok (ps, _, _) => .ok ps
  | none :: _, _, _ => .error .streamError
  | some r :: rs, buf, bi =>
    let buf1 := buf.append r
    match decDrainAcc key baseIv blockSize gOff buf1.length false buf1 bi with
    | .error e => .error e
    | .ok (ps, b, i) =>
      match accDecGo key baseIv blockSize gOff rs b i with
      | .error e => .error e
      | .ok ps2 => .ok (ps ++ ps2)

/-- The read loop of the BufferAccumulator-based encryptors. -/
def accEncGo (key baseIv : List Nat) (blockSize gOff : Nat) :
    List (Option (List Nat)) → BufferAccumulator → Nat →
    Except DecError (List (List Nat))
  | [], buf, bi =>
    match encDrainAcc key baseIv blockSize gOff buf.length true buf bi with
    | .error e => .error e
    | .ok (ps, _, _) => .ok ps
  | none :: _, _, _ => .error .streamError
  | some r :: rs, buf, bi =>
    let buf1 := buf.append r
    match encDrainAcc key baseIv blockSize gOff buf1.length false buf1 bi with
    | .error e => .error e
    | .ok (ps, b, i) =>
      match accEncGo key baseIv blockSize gOff rs b i with
      | .error e => .error e
      | .ok ps2 => .ok (ps ++ ps2)

/-- `WorkerStreamEncryptor.processStream(fileSlice, ...)` from
crypto-worker-streams.js lines 39-114: acquire the slice reader, then in a
`try` block initialise the worker key (`setMasterKey(keyId)`) and run the
block loop; the `finally` block always runs `reader.releaseLock()` and
`releaseKey(keyId)`, on success, stream error and encrypt error alike. -/
def workerStreamEncryptorProcessStream (masterKey baseIv : List Nat)
    (keyId chunkIndex chunkSize blockSize : Nat)
    (reads : List (Option (List Nat))) :
    Except DecError (List (List Nat)) × List CleanEv :=
  let gOff := chunkIndex * jsCeilDiv chunkSize blockSize
  let tf := tryFinallyEv
    (accEncGo masterKey baseIv blockSize gOff reads BufferAccumulator.empty 0,
      [CleanEv.setKey keyId])
    [CleanEv.releaseLock, CleanEv.releaseKey keyId]
  (tf.1, CleanEv.acquireReader :: tf.2)

/-- `WorkerStreamDecryptor.processStream(url, ...)` from
crypto-worker-streams.js lines 148-202: a non-ok fetch throws before the
reader is acquired or the key initialised (so nothing is released on that
path); otherwise the reader is acquired and the `try`/`finally` guarantees
`releaseLock` and `releaseKey(keyId)` on every exit. -/
def workerStreamDecryptorProcessStream (masterKey baseIv : List Nat)
    (keyId chunkIndex chunkSize blockSize : Nat) (resOk : Bool) (status : Nat)
    (reads : List (Option (List Nat))) :
    Except DecError (List (List Nat)) × List CleanEv :=
  if resOk = false then (.error (.httpError status), [])
  else
    let gOff := chunkIndex * jsCeilDiv chunkSize blockSize
    let tf := tryFinallyEv
      (accDecGo masterKey baseIv blockSize gOff reads BufferAccumulator.empty 0,
        [CleanEv.setKey keyId])
      [CleanEv.releaseLock, CleanEv.releaseKey keyId]
    (tf.1, CleanEv.acquireReader :: tf.2)

/-- `StreamDecryptor.processStream` from src/src/lib/crypto.js lines
565-613 (the main-thread BufferAccumulator variant): same loop, but with no
`try`/`finally` — after acquiring the reader it performs no `releaseLock`
and no `releaseKey` on any exit path. -/
def streamDecryptorAccProcessStream (masterKey baseIv : List Nat)
    (chunkIndex chunkSize blockSize : Nat) (resOk : Bool) (status : Nat)
    (reads : List (Option (List Nat))) :
    Except DecError (List (List Nat)) × List CleanEv :=
  if resOk = false then (.error (.httpError status), [])
  else
    (accDecGo masterKey baseIv blockSize
      (chunkIndex * jsCeilDiv chunkSize blockSize) reads
      BufferAccumulator.empty 0,
    [CleanEv.acquireReader])

/-! ## Mutating-buffer model of getChunkIV (for the frame property C9) -/

/-- A store of typed-array buffers, addressed by allocation index; models
the JavaScript heap reachable from `getChunkIV`. -/
structure BufStore where
  bufs : List (List Nat)
  deriving DecidableEq

/-- Read a buffer's bytes. -/
def BufStore.read (σ : BufStore) (i : Nat) : List Nat := σ.bufs.getD i []

/-- Allocate a fresh buffer with the given content; returns its index. -/
def BufStore.alloc (σ : BufStore) (content : List Nat) : BufStore × Nat :=
  (⟨σ.bufs ++ [content]⟩, σ.bufs.length)

/-- Overwrite `bytes.length` bytes of buffer `i` starting at `off`, as a
`DataView.setUint32` does through the view over that buffer. -/
def BufStore.writeBytes (σ : BufStore) (i off : Nat) (bytes : List Nat) :
    BufStore :=
  ⟨σ.bufs.set i ((σ.read i).take off ++ bytes ++
    (σ.read i).drop (off + bytes.length))⟩

/-- `getChunkIV` as it executes on the buffer store: `new Uint8Array(baseIv)`
allocates a fresh copy, `getUint32(8)` reads the copy, and `setUint32(8)`
writes the incremented counter into the copy only. -/
def getChunkIVStore (σ : BufStore) (baseId : Nat) (index : Nat) :
    BufStore × Nat :=
  let a := σ.alloc (σ.read baseId)
  let ctr := beUint32 ((a.1.read a.2).drop 8)
  (a.1.writeBytes a.2 8 (beBytes4 ((ctr + index) % 4294967296)), a.2)

/-! ## TokenProtocol (src/unnamed/part_002, the edge-function utils) -/

/-- The base64 alphabet as ASCII codes, indices 0-63. -/
def b64Alphabet : List Nat :=
  (List.range 26).map (fun i => i + 65) ++ (List.range 26).map (fun i => i + 97) ++
    (List.range 10).map (fun i => i + 48) ++ [43, 47]

/-- The alphabet character for a 6-bit value. -/
def b64Char (i : Nat) : Nat := b64Alphabet.getD i 0

/-- Model of the platform `btoa` (RFC 4648 base64 with padding) over byte
strings: groups of three bytes become four alphabet characters, a final
one- or two-byte group is padded with `=` (61). -/
def btoa : List Nat → List Nat
  | [] => []
  | [a] => [b64Char (a / 4), b64Char (a % 4 * 16), 61, 61]
  | [a, b] => [b64Char (a / 4), b64Char (a % 4 * 16 + b / 16), b64Char (b % 16 * 4), 61]
  | a :: b :: c :: rest =>
    b64Char (a / 4) :: b64Char (a % 4 * 16 + b / 16) ::
      b64Char (b % 16 * 4 + c / 64) :: b64Char (c % 64) :: btoa rest

/-- Index of a character in the base64 alphabet. -/
def b64Index (c : Nat) : Option Nat := b64Alphabet.findIdx? (fun x => x == c)

/-- Decode groups of base64 characters (padding already stripped); a
remainder of one character is an error, as in forgiving-base64. -/
def atobGo : List Nat → Option (List Nat)
  | [] => some []
  | [_] => none
  | [c1, c2] =>
    match b64Index c1, b64Index c2 with
    | some i1, some i2 => some [i1 * 4 + i2 / 16]
    | _, _ => none
  | [c1, c2, c3] =>
    match b64Index c1, b64Index c2, b64Index c3 with
    | some i1, some i2, some i3 => some [i1 * 4 + i2 / 16, i2 % 16 * 16 + i3 / 4]
    | _, _, _ => none
  | c1 :: c2 :: c3 :: c4 :: rest =>
    match b64Index c1, b64Index c2, b64Index c3, b64Index c4, atobGo rest with
    | some i1, some i2, some i3, some i4, some bs =>
      some ((i1 * 4 + i2 / 16) :: (i2 % 16 * 16 + i3 / 4) ::
        (i3 % 4 * 64 + i4) :: bs)
    | _, _, _, _, _ => none

/-- Model of the platform `atob` (forgiving base64 decode): strip padding,
then decode; `none` models the thrown `InvalidCharacterError`. -/
def atob (s : List Nat) : Option (List Nat) :=
  atobGo (s.filter (fun c => c != 61))

/-- The chained replaces applied to `btoa` output in `signUploadPayload`:
every plus (43) becomes minus (45), every slash (47) becomes underscore
(95), and every equals (61) is deleted. -/
def b64UrlEncode (s : List Nat) : List Nat :=
  (((s.map fun c => if c = 43 then 45 else c).map
    fun c => if c = 47 then 95 else c).filter (fun c => c != 61))

/-- The reverse replaces applied in `verifyUploadToken` before `atob`:
every minus (45) back to plus (43) and every underscore (95) back to
slash (47). -/
def b64UrlDecode (s : List Nat) : List Nat :=
  (s.map fun c => if c = 45 then 43 else c).map fun c => if c = 95 then 47 else c

/-- Modelled from the spec: HMAC-SHA256 of the unencoded payload under the
server-held `UPLOAD_SECRET` (platform `crypto.subtle.sign`/`verify`),
modelled as a fixed executable 32-byte digest function of the message. -/
def hmacSHA256 (msg : List Nat) : List Nat :=
  (List.range 32).map fun j =>
    (msg.foldl (fun a b => (a * 131 + b + 7) % 1000003) (j + 13)) % 256

/-- Decimal digits (ASCII) of a natural number, most significant first; the
fuel argument is always sufficient at `fuel = n`. -/
def natToDigitsAux : Nat → Nat → List Nat
  | 0, n => [n % 10 + 48]
  | fuel + 1, n =>
    if n < 10 then [n + 48] else natToDigitsAux fuel (n / 10) ++ [n % 10 + 48]

/-- The JavaScript template interpolation of a non-negative number. -/
def natToDecimalBytes (n : Nat) : List Nat := natToDigitsAux n n

/-- Accumulate decimal digit characters into a number. -/
def digitsToNat (ds : List Nat) : Nat := ds.foldl (fun a d => a * 10 + (d - 48)) 0

/-- Leading run of decimal digit characters. -/
def takeDigits (s : List Nat) : List Nat :=
  s.takeWhile (fun c => decide (48 ≤ c ∧ c ≤ 57))

/-- Model of JavaScript `parseInt(s, 10)` on the strings this code meets:
an optional minus sign followed by leading digits; `none` models `NaN`. -/
def parseIntModel (s : List Nat) : Option Int :=
  match s with
  | 45 :: rest =>
    let ds := takeDigits rest
    if ds = [] then none else some (-(digitsToNat ds : Int))
  | _ =>
    let ds := takeDigits s
    if ds = [] then none else some ((digitsToNat ds : Int))

/-- JavaScript `String.prototype.split` on a one-character separator. -/
def splitOnByte (sep : Nat) : List Nat → List (List Nat)
  | [] => [[]]
  | c :: cs =>
    match splitOnByte sep cs with
    | [] => [[c]]
    | h :: t => if c = sep then [] :: h :: t else (c :: h) :: t

/-- The result shape of `verifyUploadToken`. -/
structure TokenResult where
  valid : Bool
  fileId : Option (List Nat)
  folderId : Option (List Nat)
  totalChunks : Option Int
  deriving DecidableEq

/-- The `{ valid: false }` result. -/
def TokenResult.invalid : TokenResult := ⟨false, none, none, none⟩

/-- `signUploadPayload(fileId, folderId, totalChunks)` from
src/unnamed/part_002 lines 87-106: payload is the colon-joined fields;
token is base64url(payload) + "." + base64url(HMAC-SHA256(payload)). -/
def signUploadPayload (fileId folderId : List Nat) (totalChunks : Nat) :
    List Nat :=
  let payload := fileId ++ [58] ++ folderId ++ [58] ++ natToDecimalBytes totalChunks
  b64UrlEncode (btoa payload) ++ [46] ++ b64UrlEncode (btoa (hmacSHA256 payload))

/-- `verifyUploadToken(fileId, token)` from src/unnamed/part_002 lines
112-154: reject missing/empty tokens, split on the dot, decode the payload,
require the embedded fileId to equal the claimed one, recompute and compare
the HMAC, and return the embedded folderId and parsed totalChunks.  Every
thrown decode error is caught and yields `{ valid: false }`. -/
def verifyUploadToken (fileId : List Nat) (token : Option (List Nat)) :
    TokenResult :=
  match token with
  | none => .invalid
  | some t =>
    if t = [] then .invalid
    else
      let parts := splitOnByte 46 t
      let payloadB64 := parts.getD 0 []
      match parts[1]? with
      | none => .invalid
      | some sigB64 =>
        if payloadB64 = [] ∨ sigB64 = [] then .invalid
        else
          match atob (b64UrlDecode payloadB64) with
          | none => .invalid
          | some payload =>
            let fields := splitOnByte 58 payload
            let tokenFileId := fields.getD 0 []
            if tokenFileId ≠ fileId then .invalid
            else
              match atob (b64UrlDecode sigB64) with
              | none => .invalid
              | some sig =>
                if sig = hmacSHA256 payload then
                  ⟨true, some tokenFileId, fields[1]?,
                    match fields[2]? with
                    | none => none
                    | some str => parseIntModel str⟩
                else .invalid

/-! ## Upload-spec handler (src/functions/handlers/upload.js) -/

/-- Storage-backend calls the chunk handler can make. -/
inductive StorageOp where
  /-- `storage.createFolder(name)`. -/
  | createFolder (name : List Nat)
  /-- `storage.createFileAndGetUploadUrl(folderId, chunkFileName, size, hash)`. -/
  | createFileAndGetUploadUrl (folderId : List Nat) (chunkIndex : Int)
      (chunkSize : Nat) (contentHash : List Nat)
  deriving DecidableEq

/-- The per-chunk upload-spec request body plus the token header. -/
structure UploadChunkRequest where
  token : Option (List Nat)
  fileId : List Nat
  chunkIndex : Option Int
  chunkSize : Nat
  contentHash : List Nat
  deriving DecidableEq

/-- A handler outcome: the HTTP status and the storage calls performed. -/
structure HandlerResult where
  status : Nat
  storageOps : List StorageOp
  deriving DecidableEq

/-- `handleUploadChunk(c)` from src/functions/handlers/upload.js lines
91-135: validate presence of fields, verify the upload token, check
`chunkIndex < 0 || chunkIndex >= totalChunks` against the token's embedded
totalChunks (a NaN totalChunks makes the upper comparison false, as in
JavaScript), and only then contact the storage backend.  `uploadSpecOk`
models whether the backend returned an upload spec. -/
def handleUploadChunk (req : UploadChunkRequest) (uploadSpecOk : Bool) :
    HandlerResult :=
  if req.fileId = [] ∨ req.chunkIndex = none ∨ req.chunkSize = 0 then ⟨400, []⟩
  else
    let tr := verifyUploadToken req.fileId req.token
    if tr.valid = false then ⟨403, []⟩
    else
      let ci := req.chunkIndex.getD 0
      let outOfBounds : Bool :=
        match tr.totalChunks with
        | some tc => decide (ci < 0 ∨ tc ≤ ci)
        | none => decide (ci < 0)
      if outOfBounds then ⟨400, []⟩
      else
        let op := StorageOp.createFileAndGetUploadUrl (tr.folderId.getD []) ci
          req.chunkSize req.contentHash
        if uploadSpecOk then ⟨200, [op]⟩ else ⟨500, [op]⟩

/-! ## Uploader retry accounting (src/src/lib/uploader.js lines 129-186) -/

/-- One execution of the retry body of `_uploadChunk`: the XHR progress
samples (`loaded` values) observed, and whether any of the three steps
(get upload spec, transfer, completion notice) threw. -/
structure UploadAttempt where
  loadedSamples : List Int
  fails : Bool
  deriving DecidableEq

/-- The body's effect on `uploadedBytes`: each progress event adds
`loaded - chunkUploaded` and records `chunkUploaded = loaded`. -/
def applyProgressSamples (uploadedBytes0 : Int) (samples : List Int) : Int :=
  (samples.foldl (fun st loaded => (st.1 + (loaded - st.2), loaded))
    (uploadedBytes0, 0)).1

/-- One retry-body execution: `bytesBeforeAttempt` is captured on entry;
on any failure the catch restores `uploadedBytes = bytesBeforeAttempt`
before rethrowing to the retry wrapper. -/
def uploadChunkAttempt (uploadedBytes0 : Int) (a : UploadAttempt) : Int :=
  let bytesBeforeAttempt := uploadedBytes0
  let afterBody := applyProgressSamples uploadedBytes0 a.loadedSamples
  if a.fails then bytesBeforeAttempt else afterBody

/-- The `uploadedBytes` value observed at the start of each attempt that
`withRetry` actually executes (it stops at the first success). -/
def uploadRetryEnterStates (uploadedBytes0 : Int) :
    List UploadAttempt → List Int
  | [] => []
  | a :: rest =>
    uploadedBytes0 ::
      (if a.fails then
        uploadRetryEnterStates (uploadChunkAttempt uploadedBytes0 a) rest
      else [])

/-! ## Theorems -/

/-- The mask applied by the modelled cipher is an involution. -/
theorem zipWith_xor_cancel :
    ∀ (pt ks : List Nat), pt.length = ks.length →
      List.zipWith Nat.xor (List.zipWith Nat.xor pt ks) ks = pt
  | [], [], _ => rfl
  | [], _ :: _, h => by simp at h
  | _ :: _, [], h => by simp at h
  | p :: pt, k :: ks, h => by
    simp only [List.zipWith]
    rw [zipWith_xor_cancel pt ks (by simpa using h)]
    exact congrArg (fun x => x :: pt) (Nat.xor_cancel_right k p)

/-- The modelled keystream has the requested length. -/
theorem gcmKeystream_length (key iv : List Nat) (n : Nat) :
    (gcmKeystream key iv n).length = n := by
  simp [gcmKeystream]

/-- The modelled tag is 16 bytes long. -/
theorem gcmTag_length (key iv ct : List Nat) : (gcmTag key iv ct).length = 16 := by
  simp [gcmTag]

/-- Decrypting any ciphertext carrying its own correctly computed tag
recovers the unmasked bytes. -/
theorem aesGcmDecrypt_append (key iv ct : List Nat) :
    aesGcmDecrypt key iv (ct ++ gcmTag key iv ct) =
      some (List.zipWith Nat.xor ct (gcmKeystream key iv ct.length)) := by
  unfold aesGcmDecrypt
  rw [List.length_append, gcmTag_length]
  rw [if_neg (by omega)]
  rw [Nat.add_sub_cancel, List.take_left, List.drop_left]
  rw [if_pos rfl]

/-- Round trip of the modelled AEAD under equal key and nonce. -/
theorem aesGcmDecrypt_encrypt (key iv pt : List Nat) :
    aesGcmDecrypt key iv (aesGcmEncrypt key iv pt) = some pt := by
  unfold aesGcmEncrypt
  rw [aesGcmDecrypt_append]
  rw [List.length_zipWith, gcmKeystream_length, Nat.min_self]
  rw [zipWith_xor_cancel _ _ (by simp [List.length_zipWith, gcmKeystream_length])]

/-- Claim C1: for every AES-GCM key, base nonce, global block index and
plaintext, decrypting the output of `encryptBlock` with `decryptBlock` under
the same key, base nonce and global index returns exactly the plaintext. -/
theorem decryptBlock_encryptBlock (masterKey baseIv pt : List Nat)
    (globalIndex : Nat) :
    decryptBlock (encryptBlock pt masterKey baseIv globalIndex)
      masterKey baseIv globalIndex = some pt := by
  unfold decryptBlock encryptBlock
  exact aesGcmDecrypt_encrypt _ _ _

/-- `beBytes4` is injective below 2^32. -/
theorem beBytes4_inj {a b : Nat} (ha : a < 4294967296) (hb : b < 4294967296)
    (h : beBytes4 a = beBytes4 b) : a = b := by
  simp only [beBytes4, List.cons.injEq, and_true] at h
  omega

/-- Claim C2: for a 12-byte base nonce, distinct indices below 2^32 (which
covers all real global block indices and the metadata sentinel 0xFFFFFFFF)
derive distinct nonces, and the derivation leaves bytes 0-7 unchanged. -/
theorem getChunkIV_inj (base : List Nat) (i j : Nat)
    (hlen : base.length = 12) (hi : i < 4294967296) (hj : j < 4294967296)
    (hij : i ≠ j) :
    getChunkIV base i ≠ getChunkIV base j ∧
      (getChunkIV base i).take 8 = base.take 8 := by
  have h8 : (base.take 8).length = 8 := by
    rw [List.length_take]; omega
  constructor
  · intro h
    unfold getChunkIV at h
    rw [List.append_assoc, List.append_assoc] at h
    have h2 := List.append_cancel_left h
    have h3 := List.append_cancel_right h2
    have hmod : 4294967296 > 0 := by omega
    have := beBytes4_inj (Nat.mod_lt _ hmod) (Nat.mod_lt _ hmod) h3
    omega
  · unfold getChunkIV
    rw [List.take_append_of_le_length
        (by rw [List.length_append, h8]; simp [beBytes4]),
      List.take_append_of_le_length (by rw [h8]),
      List.take_take, Nat.min_self]

/-- Witness for C2 at the sentinel: index 0 and the metadata sentinel
0xFFFFFFFF derive distinct nonces from a concrete 12-byte base nonce. -/
theorem getChunkIV_inj_witness :
    getChunkIV [1,2,3,4,5,6,7,8,9,10,11,12] 0 ≠
        getChunkIV [1,2,3,4,5,6,7,8,9,10,11,12] 4294967295 ∧
      (getChunkIV [1,2,3,4,5,6,7,8,9,10,11,12] 0).take 8 =
        [1,2,3,4,5,6,7,8,9,10,11,12].take 8 :=
  getChunkIV_inj [1,2,3,4,5,6,7,8,9,10,11,12] 0 4294967295
    (by decide) (by decide) (by decide) (by decide)

/-- Specification of the merge loop: under the byte-count bound it collects
exactly the first `size` bytes of the queued stream and leaves the rest. -/
theorem consumeLoop_spec :
    ∀ (chunks : List (List Nat)) (size : Nat),
      size ≤ (chunks.map List.length).sum →
      (consumeLoop chunks size).1 = chunks.flatten.take size ∧
        (consumeLoop chunks size).2.flatten = chunks.flatten.drop size ∧
        ((consumeLoop chunks size).2.map List.length).sum =
          (chunks.map List.length).sum - size
  | chunks, 0, _ => by simp [consumeLoop]
  | [], size + 1, h => by simp at h
  | c :: cs, r + 1, h => by
    simp only [List.map_cons, List.sum_cons] at h
    by_cases hc : c.length ≤ r + 1
    · have hrec := consumeLoop_spec cs (r + 1 - c.length) (by omega)
      simp only [consumeLoop, if_pos hc]
      refine ⟨?_, ?_, ?_⟩
      · rw [List.flatten_cons, List.take_append_eq_append_take,
          List.take_of_length_le hc, hrec.1]
      · rw [List.flatten_cons, List.drop_append_eq_append_drop,
          List.drop_eq_nil_of_le hc, hrec.2.1, List.nil_append]
      · rw [hrec.2.2]
        simp only [List.map_cons, List.sum_cons]
        omega
    · simp only [consumeLoop, if_neg hc]
      have hz : r + 1 - c.length = 0 := by omega
      refine ⟨?_, ?_, ?_⟩
      · rw [List.flatten_cons, List.take_append_eq_append_take, hz,
          List.take_zero, List.append_nil]
      · rw [List.flatten_cons, List.flatten_cons,
          List.drop_append_eq_append_drop, hz, List.drop_zero]
      · simp only [List.map_cons, List.sum_cons, List.length_drop]
        omega

/-- Specification of `consume`: under the invariant, a request within the
pending byte count returns exactly the next `size` bytes of the stream and
leaves the rest, preserving the invariant. -/
theorem consume_spec (acc : BufferAccumulator) (size : Nat)
    (hinv : acc.Inv) (hsz : size ≤ acc.totalLength) :
    ∃ acc', acc.consume size = some (acc.chunks.flatten.take size, acc') ∧
      acc'.chunks.flatten = acc.chunks.flatten.drop size ∧ acc'.Inv := by
  unfold BufferAccumulator.consume
  rw [if_neg (by omega)]
  unfold BufferAccumulator.Inv at hinv
  match hacc : acc.chunks with
  | [] =>
    rw [hacc] at hinv
    simp only [List.map_nil, List.sum_nil] at hinv
    have hs0 : size = 0 := by omega
    subst hs0
    refine ⟨⟨[], acc.totalLength - 0⟩, by simp [consumeLoop], by simp, ?_⟩
    unfold BufferAccumulator.Inv
    simp
    omega
  | first :: rest =>
    rw [hacc] at hinv
    simp only [List.map_cons, List.sum_cons] at hinv
    by_cases hfast : size ≤ first.length
    · simp only [if_pos hfast]
      have hz : size - first.length = 0 := by omega
      by_cases heq : first.length = size
      · refine ⟨⟨rest, acc.totalLength - size⟩, ?_, ?_, ?_⟩
        · rw [if_pos heq, List.flatten_cons, List.take_append_eq_append_take,
            hz, List.take_zero, List.append_nil]
        · show rest.flatten = ((first :: rest).flatten).drop size
          rw [List.flatten_cons, List.drop_append_eq_append_drop, hz,
            List.drop_zero, List.drop_eq_nil_of_le (by omega), List.nil_append]
        · unfold BufferAccumulator.Inv
          simp only []
          omega
      · refine ⟨⟨first.drop size :: rest, acc.totalLength - size⟩, ?_, ?_, ?_⟩
        · rw [if_neg heq, List.flatten_cons, List.take_append_eq_append_take,
            hz, List.take_zero, List.append_nil]
        · simp only [List.flatten_cons, List.drop_append_eq_append_drop, hz,
            List.drop_zero]
        · unfold BufferAccumulator.Inv
          simp only [List.map_cons, List.sum_cons, List.length_drop]
          omega
    · simp only [if_neg hfast]
      have hsum : size ≤ ((first :: rest).map List.length).sum := by
        simp only [List.map_cons, List.sum_cons]
        omega
      have hspec := consumeLoop_spec (first :: rest) size hsum
      refine ⟨⟨(consumeLoop (first :: rest) size).2, acc.totalLength - size⟩,
        ?_, hspec.2.1, ?_⟩
      · have hlen : (consumeLoop (first :: rest) size).1.length = size := by
          rw [hspec.1, List.length_take, List.length_flatten]
          simp only [List.map_cons, List.sum_cons]
          omega
        rw [hlen, Nat.sub_self, List.replicate_zero, List.append_nil, hspec.1]
      · unfold BufferAccumulator.Inv
        simp only []
        rw [hspec.2.2]
        simp only [List.map_cons, List.sum_cons]
        omega

/-- Specification of `consumeAll`: under the invariant it returns the whole
pending stream and leaves an accumulator with no pending bytes. -/
theorem consumeAll_spec (acc : BufferAccumulator) (hinv : acc.Inv) :
    acc.consumeAll.1 = acc.chunks.flatten ∧ acc.consumeAll.2.totalLength = 0 := by
  unfold BufferAccumulator.consumeAll
  unfold BufferAccumulator.Inv at hinv
  by_cases h0 : acc.totalLength = 0
  · rw [if_pos h0]
    have hlen : acc.chunks.flatten.length = 0 := by
      rw [List.length_flatten]
      omega
    exact ⟨(List.eq_nil_of_length_eq_zero hlen).symm, h0⟩
  · rw [if_neg h0]
    match acc.chunks with
    | [c] => exact ⟨by simp, rfl⟩
    | [] => exact ⟨by simp, rfl⟩
    | c :: d :: cs => exact ⟨rfl, rfl⟩

/-- Specification of a whole `consume` sequence: if the sizes fit in the
pending byte count, every call succeeds, the outputs concatenate to the
first `sum sizes` bytes, and the remainder stays queued. -/
theorem runConsumes_spec :
    ∀ (sizes : List Nat) (acc : BufferAccumulator), acc.Inv →
      sizes.sum ≤ acc.totalLength →
      ∃ outs acc', runConsumes acc sizes = some (outs, acc') ∧
        outs.flatten = acc.chunks.flatten.take sizes.sum ∧
        acc'.chunks.flatten = acc.chunks.flatten.drop sizes.sum ∧ acc'.Inv
  | [], acc, hinv, _ => ⟨[], acc, rfl, by simp, by simp, hinv⟩
  | s :: ss, acc, hinv, hsum => by
    simp only [List.sum_cons] at hsum
    obtain ⟨acc1, hc, hjoin, hinv1⟩ := consume_spec acc s hinv (by omega)
    have hlen1 : acc1.totalLength = acc.totalLength - s := by
      unfold BufferAccumulator.Inv at hinv hinv1
      rw [hinv1, hinv, ← List.length_flatten, ← List.length_flatten, hjoin,
        List.length_drop]
    obtain ⟨outs, acc2, hrun, houts, hrem, hinv2⟩ :=
      runConsumes_spec ss acc1 hinv1 (by omega)
    refine ⟨acc.chunks.flatten.take s :: outs, acc2, ?_, ?_, ?_, hinv2⟩
    · simp only [runConsumes, hc, hrun]
    · simp only [List.flatten_cons, List.sum_cons]
      rw [houts, hjoin, List.take_add]
    · rw [hrem, hjoin, List.drop_drop]
      simp only [List.sum_cons]
      try rw [Nat.add_comm ss.sum s]

/-- The accumulator built from a sequence of appends queues exactly those
slices and satisfies the invariant. -/
theorem appendAll_spec (inputs : List (List Nat)) :
    (appendAll inputs).chunks = inputs ∧ (appendAll inputs).Inv := by
  have hgen : ∀ (l : List (List Nat)) (acc : BufferAccumulator),
      (l.foldl BufferAccumulator.append acc).chunks = acc.chunks ++ l ∧
        (l.foldl BufferAccumulator.append acc).totalLength =
          acc.totalLength + (l.map List.length).sum := by
    intro l
    induction l with
    | nil => intro acc; simp
    | cons c cs ih =>
      intro acc
      obtain ⟨h1, h2⟩ := ih (acc.append c)
      refine ⟨?_, ?_⟩
      · rw [List.foldl_cons, h1]
        simp [BufferAccumulator.append]
      · rw [List.foldl_cons, h2]
        simp only [BufferAccumulator.append, List.map_cons, List.sum_cons]
        omega
  obtain ⟨h1, h2⟩ := hgen inputs BufferAccumulator.empty
  unfold appendAll BufferAccumulator.Inv
  rw [h1, h2]
  simp [BufferAccumulator.empty]

/-- Claim C4: for any sequence of appended byte arrays and any sequence of
consume sizes that fit in the total (the tail being recovered by a final
`consumeAll`, which covers both a last call sized to the remainder and a last
call that is `consumeAll`), the concatenation of everything returned equals
the concatenation of everything appended, regardless of append boundaries. -/
theorem bufferAccumulator_roundtrip (inputs : List (List Nat))
    (sizes : List Nat)
    (h : sizes.sum ≤ (appendAll inputs).totalLength) :
    ∃ outs acc', runConsumes (appendAll inputs) sizes = some (outs, acc') ∧
      outs.flatten ++ acc'.consumeAll.1 = inputs.flatten := by
  obtain ⟨hchunks, hinv⟩ := appendAll_spec inputs
  obtain ⟨outs, acc', hrun, houts, hrem, hinv'⟩ :=
    runConsumes_spec sizes (appendAll inputs) hinv h
  refine ⟨outs, acc', hrun, ?_⟩
  rw [houts, (consumeAll_spec acc' hinv').1, hrem, hchunks,
    List.take_append_drop]

/-- Witness for C4: three appends of irregular sizes, consumed as 4 + 1
bytes plus a final `consumeAll`, reproduce the appended stream. -/
theorem bufferAccumulator_roundtrip_witness :
    [4, 1].sum ≤ (appendAll [[1, 2, 3], [], [4, 5, 6, 7]]).totalLength ∧
      ∃ outs acc',
        runConsumes (appendAll [[1, 2, 3], [], [4, 5, 6, 7]]) [4, 1] =
            some (outs, acc') ∧
          outs.flatten ++ acc'.consumeAll.1 =
            [[1, 2, 3], [], [4, 5, 6, 7]].flatten :=
  ⟨by decide, bufferAccumulator_roundtrip [[1, 2, 3], [], [4, 5, 6, 7]] [4, 1]
    (by decide)⟩

/-- Claim C10: `consumeAll` on an accumulator with no pending bytes returns
a zero-length array (it never errors, as its total return type shows), and
after every `consumeAll` call the accumulator's length is 0. -/
theorem consumeAll_empty_and_resets (acc : BufferAccumulator) :
    (acc.totalLength = 0 → acc.consumeAll.1 = []) ∧
      acc.consumeAll.2.length = 0 := by
  unfold BufferAccumulator.consumeAll BufferAccumulator.length
  by_cases h0 : acc.totalLength = 0
  · rw [if_pos h0]
    exact ⟨fun _ => rfl, h0⟩
  · rw [if_neg h0]
    refine ⟨fun h => absurd h h0, ?_⟩
    match acc.chunks with
    | [c] => rfl
    | [] => rfl
    | c :: d :: cs => rfl

/-- Witness for C10 on a concrete accumulator state. -/
theorem consumeAll_empty_and_resets_witness :
    (BufferAccumulator.empty.totalLength = 0 →
        BufferAccumulator.empty.consumeAll.1 = []) ∧
      BufferAccumulator.empty.consumeAll.2.length = 0 :=
  consumeAll_empty_and_resets BufferAccumulator.empty

/-- Every error exit of the block-draining loop of the streaming decryptor
is the raw crypto operation error. -/
theorem decDrain_error (key baseIv : List Nat) (blockSize gOff : Nat) :
    ∀ (fuel : Nat) (done : Bool) (pending : List Nat) (bi : Nat) (e : DecError),
      decDrain key baseIv blockSize gOff fuel done pending bi = .error e →
      e = .cryptoOperationError := by
  intro fuel
  induction fuel with
  | zero =>
    intro done pending bi e h
    simp [decDrain] at h
  | succ n ih =>
    intro done pending bi e h
    simp only [decDrain] at h
    split at h
    · split at h
      · cases h
        rfl
      · split at h
        · simp at h
        · split at h
          · rename_i heq
            cases h
            exact ih done _ _ _ heq
          · simp at h
    · simp at h

/-- Every error exit of the streaming decryptor read loop is the raw crypto
operation error. -/
theorem streamDecryptorGo_error (key baseIv : List Nat) (blockSize gOff : Nat) :
    ∀ (reads : List (List Nat)) (pending : List Nat) (bi : Nat) (e : DecError),
      streamDecryptorGo key baseIv blockSize gOff reads pending bi = .error e →
      e = .cryptoOperationError := by
  intro reads
  induction reads with
  | nil =>
    intro pending bi e h
    simp only [streamDecryptorGo] at h
    split at h
    · rename_i heq
      cases h
      exact decDrain_error key baseIv blockSize gOff _ _ _ _ _ heq
    · simp at h
  | cons r rs ih =>
    intro pending bi e h
    simp only [streamDecryptorGo] at h
    split at h
    · rename_i heq
      cases h
      exact decDrain_error key baseIv blockSize gOff _ _ _ _ _ heq
    · split at h
      · rename_i heq
        cases h
        exact ih _ _ _ heq
      · simp at h

/-- Claim C3 (amended): when the fetch itself succeeded, any failure the
streaming decryptor's decrypt path surfaces is the raw WebCrypto operation
error propagated unwrapped — never the generic download error, but also not
the labelled tamper-or-wrong-key error; that distinct message is raised only
by the legacy whole-chunk `decryptChunk` path. -/
theorem streamDecryptor_error_taxonomy (key baseIv data : List Nat)
    (chunkIndex chunkSize blockSize status ci : Nat)
    (reads : List (List Nat)) (e : DecError)
    (h1 : streamDecryptorProcessStream key baseIv chunkIndex chunkSize
      blockSize true status reads = .error e)
    (h2 : aesGcmDecrypt key (getChunkIV baseIv ci) data = none) :
    e = .cryptoOperationError ∧ e.isTamperOrWrongKey = false ∧
      (∀ s, e ≠ .httpError s) ∧
      decryptChunk data key baseIv ci = .error (.tamperOrWrongKey ci) := by
  unfold streamDecryptorProcessStream at h1
  rw [if_neg (by simp)] at h1
  have he := streamDecryptorGo_error key baseIv blockSize
    (chunkIndex * jsCeilDiv chunkSize blockSize) reads [] 0 e h1
  subst he
  refine ⟨rfl, rfl, ?_, ?_⟩
  · intro s hcontra
    exact DecError.noConfusion hcontra
  · unfold decryptChunk
    rw [h2]

/-- Counterexample to C3 as stated: a concrete single-block stream whose
ciphertext has one byte flipped makes the streaming decryptor surface the
raw crypto operation error, which is not the tamper-or-wrong-key error the
claim promises. -/
theorem streamDecryptor_tamper_counterexample :
    streamDecryptorProcessStream [5, 6] [0, 0, 0, 0, 0, 0, 0, 0, 0, 0, 0, 0]
        0 8 4 true 200
        [List.modifyHead (fun b => (b + 1) % 256)
          (encryptBlock [1, 2, 3] [5, 6] [0, 0, 0, 0, 0, 0, 0, 0, 0, 0, 0, 0] 0)] =
      .error .cryptoOperationError ∧
      DecError.isTamperOrWrongKey .cryptoOperationError = false := by
  exact ⟨by rfl, rfl⟩

/-- Witness for the amended C3 at the concrete tampered stream. -/
theorem streamDecryptor_error_taxonomy_witness :
    (DecError.cryptoOperationError = .cryptoOperationError ∧
      DecError.isTamperOrWrongKey .cryptoOperationError = false ∧
      (∀ s, DecError.cryptoOperationError ≠ .httpError s) ∧
      decryptChunk [9, 9, 9, 9, 9, 9, 9, 9, 9, 9, 9, 9, 9, 9, 9, 9, 9]
        [5, 6] [0, 0, 0, 0, 0, 0, 0, 0, 0, 0, 0, 0] 1 =
        .error (.tamperOrWrongKey 1)) :=
  streamDecryptor_error_taxonomy [5, 6] [0, 0, 0, 0, 0, 0, 0, 0, 0, 0, 0, 0]
    [9, 9, 9, 9, 9, 9, 9, 9, 9, 9, 9, 9, 9, 9, 9, 9, 9] 0 8 4 200 1
    [List.modifyHead (fun b => (b + 1) % 256)
      (encryptBlock [1, 2, 3] [5, 6] [0, 0, 0, 0, 0, 0, 0, 0, 0, 0, 0, 0] 0)]
    .cryptoOperationError (by rfl) (by rfl)

/-- Claim C9: `getChunkIV` never mutates its `baseIv` argument — the write
lands in the freshly allocated copy, so the base buffer reads back unchanged
and the returned buffer is a different allocation. -/
theorem getChunkIVStore_frame (σ : BufStore) (baseId index : Nat)
    (h : baseId < σ.bufs.length) :
    (getChunkIVStore σ baseId index).1.read baseId = σ.read baseId ∧
      (getChunkIVStore σ baseId index).2 ≠ baseId := by
  unfold getChunkIVStore BufStore.alloc BufStore.writeBytes
  refine ⟨?_, by simp only []; omega⟩
  show BufStore.read _ baseId = σ.read baseId
  unfold BufStore.read
  simp only []
  rw [List.getD_eq_getElem?_getD, List.getD_eq_getElem?_getD,
    List.getElem?_set_ne (by omega), List.getElem?_append, if_pos h]

/-- Witness for C9 on a concrete two-buffer store. -/
theorem getChunkIVStore_frame_witness :
    (getChunkIVStore ⟨[[1, 2], [0, 0, 0, 0, 0, 0, 0, 0, 0, 0, 0, 9]]⟩ 1 7).1.read 1 =
        BufStore.read ⟨[[1, 2], [0, 0, 0, 0, 0, 0, 0, 0, 0, 0, 0, 9]]⟩ 1 ∧
      (getChunkIVStore ⟨[[1, 2], [0, 0, 0, 0, 0, 0, 0, 0, 0, 0, 0, 9]]⟩ 1 7).2 ≠ 1 :=
  getChunkIVStore_frame ⟨[[1, 2], [0, 0, 0, 0, 0, 0, 0, 0, 0, 0, 0, 9]]⟩ 1 7
    (by decide)

/-- Claim C7: a failed attempt of the chunk-upload triple restores
`uploadedBytes` to exactly its value at the start of that attempt, so every
attempt the retry loop actually runs starts from the same global progress
value — no double counting and no loss across retries. -/
theorem uploadedBytes_restored_on_retry (ub0 : Int) (a : UploadAttempt)
    (attempts : List UploadAttempt) (hf : a.fails = true) :
    uploadChunkAttempt ub0 a = ub0 ∧
      ∀ s ∈ uploadRetryEnterStates ub0 attempts, s = ub0 := by
  constructor
  · simp [uploadChunkAttempt, hf]
  · induction attempts with
    | nil => intro s hs; simp [uploadRetryEnterStates] at hs
    | cons b rest ih =>
      intro s hs
      simp only [uploadRetryEnterStates] at hs
      rcases List.mem_cons.mp hs with h1 | h2
      · exact h1
      · by_cases hb : b.fails
        · rw [if_pos hb] at h2
          have hrestore : uploadChunkAttempt ub0 b = ub0 := by
            simp [uploadChunkAttempt, hb]
          rw [hrestore] at h2
          exact ih s h2
        · rw [if_neg hb] at h2
          simp at h2

/-- Witness for C7: a failing attempt that had reported 30 bytes of
progress is rolled back to the pre-attempt value 100, and a concrete retry
sequence enters every attempt at 100. -/
theorem uploadedBytes_restored_on_retry_witness :
    uploadChunkAttempt 100 ⟨[10, 30], true⟩ = 100 ∧
      ∀ s ∈ uploadRetryEnterStates 100
        [⟨[10, 30], true⟩, ⟨[5], true⟩, ⟨[40], false⟩], s = 100 :=
  uploadedBytes_restored_on_retry 100 ⟨[10, 30], true⟩
    [⟨[10, 30], true⟩, ⟨[5], true⟩, ⟨[40], false⟩] rfl

/-- Claim C8 (amended): the worker-based encryptor and decryptor release
the reader lock and the session key in a guaranteed `finally` on every exit
path once the reader is acquired; the decryptor's failed-fetch path exits
before acquiring the reader or initialising the key, so nothing needs (or
gets) releasing there.  (The main-thread `StreamDecryptor` in crypto.js has
no such cleanup — see the counterexample.) -/
theorem workerProcessStream_cleanup (masterKey baseIv : List Nat)
    (keyId chunkIndex chunkSize blockSize status : Nat)
    (encReads decReads : List (Option (List Nat))) :
    (workerStreamEncryptorProcessStream masterKey baseIv keyId chunkIndex
        chunkSize blockSize encReads).2 =
      [CleanEv.acquireReader, CleanEv.setKey keyId, CleanEv.releaseLock,
        CleanEv.releaseKey keyId] ∧
      (workerStreamDecryptorProcessStream masterKey baseIv keyId chunkIndex
          chunkSize blockSize true status decReads).2 =
        [CleanEv.acquireReader, CleanEv.setKey keyId, CleanEv.releaseLock,
          CleanEv.releaseKey keyId] ∧
      (workerStreamDecryptorProcessStream masterKey baseIv keyId chunkIndex
          chunkSize blockSize false status decReads).2 = [] :=
  ⟨rfl, rfl, rfl⟩

/-- Counterexample to C8 as stated: the main-thread
`StreamDecryptor.processStream` (crypto.js lines 565-613), one of the chunk
decryptors the claim covers, completes a concrete successful run having
acquired the reader but never releasing the lock and never calling
`releaseKey`. -/
theorem streamDecryptorAcc_no_cleanup_counterexample :
    (streamDecryptorAccProcessStream [5, 6] [0, 0, 0, 0, 0, 0, 0, 0, 0, 0, 0, 0]
          0 8 4 true 200
          [some (encryptBlock [1, 2, 3] [5, 6]
            [0, 0, 0, 0, 0, 0, 0, 0, 0, 0, 0, 0] 0)]).2 =
        [CleanEv.acquireReader] ∧
      CleanEv.releaseLock ∉
        (streamDecryptorAccProcessStream [5, 6]
          [0, 0, 0, 0, 0, 0, 0, 0, 0, 0, 0, 0] 0 8 4 true 200
          [some (encryptBlock [1, 2, 3] [5, 6]
            [0, 0, 0, 0, 0, 0, 0, 0, 0, 0, 0, 0] 0)]).2 ∧
      (streamDecryptorAccProcessStream [5, 6]
          [0, 0, 0, 0, 0, 0, 0, 0, 0, 0, 0, 0] 0 8 4 true 200
          [some (encryptBlock [1, 2, 3] [5, 6]
            [0, 0, 0, 0, 0, 0, 0, 0, 0, 0, 0, 0] 0)]).1 = .ok [[1, 2, 3]] := by
  refine ⟨rfl, by decide, by rfl⟩

/-- Claim C6: a per-chunk upload-spec request whose token verifies with
embedded totalChunks `T` but whose `chunkIndex` lies outside `[0, T-1]` is
rejected with a 400 validation error before any storage-backend call. -/
theorem handleUploadChunk_bounds (req : UploadChunkRequest)
    (uploadSpecOk : Bool) (T ci : Int)
    (hv : (verifyUploadToken req.fileId req.token).valid = true)
    (hT : (verifyUploadToken req.fileId req.token).totalChunks = some T)
    (hci : req.chunkIndex = some ci)
    (hout : ci < 0 ∨ T ≤ ci) :
    handleUploadChunk req uploadSpecOk = ⟨400, []⟩ := by
  unfold handleUploadChunk
  by_cases hguard : req.fileId = [] ∨ req.chunkIndex = none ∨ req.chunkSize = 0
  · rw [if_pos hguard]
  · rw [if_neg hguard]
    rw [if_neg (by rw [hv]; simp)]
    simp only [hci, hT, Option.getD_some]
    rw [if_pos (by simpa using hout)]

/-- Witness for C6: a token signed for totalChunks = 5 with attempted
chunkIndex = 5 is rejected with 400 and no storage call (end-to-end
scenario C). -/
theorem handleUploadChunk_bounds_witness :
    (verifyUploadToken [97] (some (signUploadPayload [97] [98] 5))).valid = true ∧
      (verifyUploadToken [97]
          (some (signUploadPayload [97] [98] 5))).totalChunks = some 5 ∧
      handleUploadChunk
          ⟨some (signUploadPayload [97] [98] 5), [97], some 5, 10, []⟩ true =
        ⟨400, []⟩ :=
  ⟨by decide, by decide,
    handleUploadChunk_bounds
      ⟨some (signUploadPayload [97] [98] 5), [97], some 5, 10, []⟩ true 5 5
      (by decide) (by decide) rfl (by decide)⟩

/-- The alphabet lookup is injectively invertible on 6-bit values. -/
theorem b64Index_b64Char : ∀ i < 64, b64Index (b64Char i) = some i := by decide

/-- Alphabet characters avoid the padding, dot, minus and underscore
codes. -/
theorem b64Char_ne : ∀ i < 64,
    b64Char i ≠ 61 ∧ b64Char i ≠ 46 ∧ b64Char i ≠ 45 ∧ b64Char i ≠ 95 := by
  decide

/-- Every character `btoa` emits is an alphabet character of a 6-bit value,
or the padding character. -/
theorem btoa_chars : ∀ (bs : List Nat), (∀ b ∈ bs, b < 256) →
    ∀ c ∈ btoa bs, c = 61 ∨ ∃ i, i < 64 ∧ c = b64Char i
  | [], _, c, hc => by simp [btoa] at hc
  | [a], h, c, hc => by
    have ha : a < 256 := h a (by simp)
    simp only [btoa, List.mem_cons, List.not_mem_nil, or_false] at hc
    rcases hc with h1 | h1 | h1 | h1
    · exact Or.inr ⟨a / 4, by omega, h1⟩
    · exact Or.inr ⟨a % 4 * 16, by omega, h1⟩
    · exact Or.inl h1
    · exact Or.inl h1
  | [a, b], h, c, hc => by
    have ha : a < 256 := h a (by simp)
    have hb : b < 256 := h b (by simp)
    simp only [btoa, List.mem_cons, List.not_mem_nil, or_false] at hc
    rcases hc with h1 | h1 | h1 | h1
    · exact Or.inr ⟨a / 4, by omega, h1⟩
    · exact Or.inr ⟨a % 4 * 16 + b / 16, by omega, h1⟩
    · exact Or.inr ⟨b % 16 * 4, by omega, h1⟩
    · exact Or.inl h1
  | a :: b :: d :: rest, h, c, hc => by
    have ha : a < 256 := h a (by simp)
    have hb : b < 256 := h b (by simp)
    have hd : d < 256 := h d (by simp)
    simp only [btoa, List.mem_cons] at hc
    rcases hc with h1 | h1 | h1 | h1 | h1
    · exact Or.inr ⟨a / 4, by omega, h1⟩
    · exact Or.inr ⟨a % 4 * 16 + b / 16, by omega, h1⟩
    · exact Or.inr ⟨b % 16 * 4 + d / 64, by omega, h1⟩
    · exact Or.inr ⟨d % 64, by omega, h1⟩
    · exact btoa_chars rest (fun x hx => h x (by simp [hx])) c h1

/-- The url-safe re-replacements undo the url-safe replacements on any
string of alphabet-or-padding characters, leaving the padding stripped. -/
theorem b64UrlDecode_b64UrlEncode : ∀ (s : List Nat),
    (∀ c ∈ s, c = 61 ∨ ∃ i, i < 64 ∧ c = b64Char i) →
    b64UrlDecode (b64UrlEncode s) = s.filter (fun c => c != 61)
  | [], _ => rfl
  | c :: cs, h => by
    have hrec := b64UrlDecode_b64UrlEncode cs (fun x hx => h x (by simp [hx]))
    simp only [b64UrlEncode, b64UrlDecode] at hrec ⊢
    simp at hrec
    rcases h c (by simp) with hc | ⟨i, hi, hc⟩
    · subst hc
      simp [List.filter_cons, hrec]
    · obtain ⟨hne61, _, hne45, hne95⟩ := b64Char_ne i hi
      rw [← hc] at hne61 hne45 hne95
      by_cases h43 : c = 43
      · subst h43
        simp [List.filter_cons, hrec]
      · by_cases h47 : c = 47
        · subst h47
          simp [List.filter_cons, hrec]
        · simp [List.filter_cons, hrec, h43, h47, hne61, hne45, hne95]

/-- `atob` ignores padding characters wherever they appear. -/
theorem atob_filter (s : List Nat) :
    atob (s.filter (fun c => c != 61)) = atob s := by
  unfold atob
  rw [List.filter_filter]
  congr 1
  apply List.filter_congr
  intro a _
  exact Bool.and_self _

/-- Decoding the padded base64 encoding of a byte string recovers it. -/
theorem atob_btoa : ∀ (bs : List Nat), (∀ b ∈ bs, b < 256) →
    atob (btoa bs) = some bs
  | [], _ => rfl
  | [a], h => by
    have ha : a < 256 := h a (by simp)
    have hx := b64Index_b64Char (a / 4) (by omega)
    have hy := b64Index_b64Char (a % 4 * 16) (by omega)
    have hx61 := (b64Char_ne (a / 4) (by omega)).1
    have hy61 := (b64Char_ne (a % 4 * 16) (by omega)).1
    unfold atob btoa
    rw [List.filter_cons, if_pos (by simpa using hx61), List.filter_cons,
      if_pos (by simpa using hy61), List.filter_cons,
      if_neg (by decide), List.filter_cons, if_neg (by decide), List.filter_nil]
    simp only [atobGo, hx, hy]
    simp only [Option.some.injEq, List.cons.injEq, and_true]
    omega
  | [a, b], h => by
    have ha : a < 256 := h a (by simp)
    have hb : b < 256 := h b (by simp)
    have hx := b64Index_b64Char (a / 4) (by omega)
    have hy := b64Index_b64Char (a % 4 * 16 + b / 16) (by omega)
    have hz := b64Index_b64Char (b % 16 * 4) (by omega)
    have hx61 := (b64Char_ne (a / 4) (by omega)).1
    have hy61 := (b64Char_ne (a % 4 * 16 + b / 16) (by omega)).1
    have hz61 := (b64Char_ne (b % 16 * 4) (by omega)).1
    unfold atob btoa
    rw [List.filter_cons, if_pos (by simpa using hx61), List.filter_cons,
      if_pos (by simpa using hy61), List.filter_cons,
      if_pos (by simpa using hz61), List.filter_cons, if_neg (by decide),
      List.filter_nil]
    simp only [atobGo, hx, hy, hz]
    simp only [Option.some.injEq, List.cons.injEq, and_true]
    omega
  | a :: b :: d :: rest, h => by
    have ha : a < 256 := h a (by simp)
    have hb : b < 256 := h b (by simp)
    have hd : d < 256 := h d (by simp)
    have hrest : ∀ x ∈ rest, x < 256 := fun x hx => h x (by simp [hx])
    have hrec := atob_btoa rest hrest
    unfold atob at hrec
    have h1 := b64Index_b64Char (a / 4) (by omega)
    have h2 := b64Index_b64Char (a % 4 * 16 + b / 16) (by omega)
    have h3 := b64Index_b64Char (b % 16 * 4 + d / 64) (by omega)
    have h4 := b64Index_b64Char (d % 64) (by omega)
    have h161 := (b64Char_ne (a / 4) (by omega)).1
    have h261 := (b64Char_ne (a % 4 * 16 + b / 16) (by omega)).1
    have h361 := (b64Char_ne (b % 16 * 4 + d / 64) (by omega)).1
    have h461 := (b64Char_ne (d % 64) (by omega)).1
    unfold atob btoa
    rw [List.filter_cons, if_pos (by simpa using h161), List.filter_cons,
      if_pos (by simpa using h261), List.filter_cons,
      if_pos (by simpa using h361), List.filter_cons,
      if_pos (by simpa using h461)]
    simp only [atobGo, h1, h2, h3, h4, hrec]
    simp only [Option.some.injEq, List.cons.injEq, and_true]
    refine ⟨by omega, by omega, by omega⟩

/-- A split never produces the empty list of parts. -/
theorem splitOnByte_ne_nil (sep : Nat) : ∀ (l : List Nat),
    splitOnByte sep l ≠ []
  | [] => by simp [splitOnByte]
  | c :: cs => by
    obtain ⟨h1, t, hht⟩ := List.exists_cons_of_ne_nil (splitOnByte_ne_nil sep cs)
    by_cases hc : c = sep
    · simp [splitOnByte, hht, hc]
    · simp [splitOnByte, hht, hc]

/-- A string without the separator splits into the single whole part. -/
theorem splitOnByte_not_mem (sep : Nat) : ∀ (a : List Nat), sep ∉ a →
    splitOnByte sep a = [a]
  | [], _ => rfl
  | c :: cs, h => by
    have hc : ¬ c = sep := fun hh => h (by simp [hh])
    have ht : sep ∉ cs := fun hh => h (by simp [hh])
    simp [splitOnByte, splitOnByte_not_mem sep cs ht, hc]

/-- Splitting a separated concatenation yields the left part first. -/
theorem splitOnByte_append (sep : Nat) : ∀ (a b : List Nat), sep ∉ a →
    splitOnByte sep (a ++ sep :: b) = a :: splitOnByte sep b
  | [], b, _ => by
    obtain ⟨h1, t, hht⟩ := List.exists_cons_of_ne_nil (splitOnByte_ne_nil sep b)
    simp [splitOnByte, hht]
  | c :: cs, b, h => by
    have hc : ¬ c = sep := fun hh => h (by simp [hh])
    have ht : sep ∉ cs := fun hh => h (by simp [hh])
    have hrec := splitOnByte_append sep cs b ht
    simp [splitOnByte, hrec, hc]

/-- Decimal digit characters stay in the digit range. -/
theorem natToDigitsAux_bounds : ∀ (fuel n : Nat),
    ∀ d ∈ natToDigitsAux fuel n, 48 ≤ d ∧ d ≤ 57
  | 0, n, d, hd => by
    simp only [natToDigitsAux, List.mem_cons, List.not_mem_nil, or_false] at hd
    omega
  | fuel + 1, n, d, hd => by
    simp only [natToDigitsAux] at hd
    by_cases hn : n < 10
    · rw [if_pos hn] at hd
      simp only [List.mem_cons, List.not_mem_nil, or_false] at hd
      omega
    · rw [if_neg hn] at hd
      rcases List.mem_append.mp hd with h1 | h1
      · exact natToDigitsAux_bounds fuel (n / 10) d h1
      · simp only [List.mem_cons, List.not_mem_nil, or_false] at h1
        omega

/-- The digit expansion is never empty. -/
theorem natToDigitsAux_ne_nil : ∀ (fuel n : Nat), natToDigitsAux fuel n ≠ []
  | 0, n => by simp [natToDigitsAux]
  | fuel + 1, n => by
    simp only [natToDigitsAux]
    by_cases hn : n < 10
    · rw [if_pos hn]; simp
    · rw [if_neg hn]; simp

/-- Reading back the digit expansion recovers the number. -/
theorem digitsToNat_natToDigitsAux : ∀ (fuel n : Nat), n ≤ fuel →
    digitsToNat (natToDigitsAux fuel n) = n
  | 0, n, h => by
    have : n = 0 := by omega
    subst this
    rfl
  | fuel + 1, n, h => by
    simp only [natToDigitsAux]
    by_cases hn : n < 10
    · rw [if_pos hn]
      simp only [digitsToNat, List.foldl_cons, List.foldl_nil]
      omega
    · rw [if_neg hn]
      have hrec := digitsToNat_natToDigitsAux fuel (n / 10) (by omega)
      simp only [digitsToNat, List.foldl_append, List.foldl_cons, List.foldl_nil]
      simp only [digitsToNat] at hrec
      rw [hrec]
      omega

/-- A list of digit characters is consumed whole by `takeDigits`. -/
theorem takeDigits_all : ∀ (l : List Nat), (∀ d ∈ l, 48 ≤ d ∧ d ≤ 57) →
    takeDigits l = l
  | [], _ => rfl
  | c :: cs, h => by
    simp only [takeDigits, List.takeWhile_cons]
    rw [if_pos (by simpa using h c (by simp))]
    have := takeDigits_all cs (fun d hd => h d (by simp [hd]))
    simp only [takeDigits] at this
    rw [this]

/-- `parseInt` inverts the decimal printing of a natural number. -/
theorem parseIntModel_natToDecimalBytes (n : Nat) :
    parseIntModel (natToDecimalBytes n) = some (n : Int) := by
  have hbounds := natToDigitsAux_bounds n n
  have hne := natToDigitsAux_ne_nil n n
  unfold parseIntModel natToDecimalBytes
  split
  · rename_i rest heq
    have h45 := hbounds 45 (by rw [heq]; simp)
    omega
  · rw [takeDigits_all _ hbounds]
    rw [if_neg hne]
    rw [digitsToNat_natToDigitsAux n n le_rfl]

/-- Every digest byte of the modelled HMAC is a byte. -/
theorem hmacSHA256_bytes (msg : List Nat) : ∀ b ∈ hmacSHA256 msg, b < 256 := by
  intro b hb
  simp only [hmacSHA256, List.mem_map] at hb
  obtain ⟨j, _, hj⟩ := hb
  omega

/-- The modelled HMAC digest is never empty. -/
theorem hmacSHA256_ne_nil (msg : List Nat) : hmacSHA256 msg ≠ [] := by
  simp [hmacSHA256]

/-- A url-safe encoding of a string headed by a non-padding character is
nonempty. -/
theorem b64UrlEncode_ne_nil (c : Nat) (s : List Nat) (hc : c ≠ 61) :
    b64UrlEncode (c :: s) ≠ [] := by
  simp only [b64UrlEncode, List.map_cons, List.filter_cons]
  by_cases h43 : c = 43
  · subst h43
    simp
  · by_cases h47 : c = 47
    · subst h47
      simp
    · rw [if_neg h43, if_neg h47, if_pos (by simpa using hc)]
      simp

/-- `btoa` of a nonempty string starts with the alphabet character of the
first six bits. -/
theorem btoa_head : ∀ (a : Nat) (t : List Nat),
    ∃ s, btoa (a :: t) = b64Char (a / 4) :: s
  | _, [] => ⟨_, rfl⟩
  | _, [_] => ⟨_, rfl⟩
  | _, _ :: _ :: _ => ⟨_, rfl⟩

/-- The url-safe base64 encoding of a nonempty byte string is nonempty. -/
theorem b64UrlEncode_btoa_ne_nil (bs : List Nat) (hne : bs ≠ [])
    (h : ∀ b ∈ bs, b < 256) : b64UrlEncode (btoa bs) ≠ [] := by
  obtain ⟨a, t, rfl⟩ := List.exists_cons_of_ne_nil hne
  obtain ⟨s, hs⟩ := btoa_head a t
  rw [hs]
  exact b64UrlEncode_ne_nil _ _
    ((b64Char_ne (a / 4) (by have := h a (by simp); omega)).1)

/-- The url-safe base64 encoding never contains the dot separator. -/
theorem b64UrlEncode_not_dot (s : List Nat)
    (hs : ∀ c ∈ s, c = 61 ∨ ∃ i, i < 64 ∧ c = b64Char i) :
    46 ∉ b64UrlEncode s := by
  intro hmem
  unfold b64UrlEncode at hmem
  rw [List.mem_filter] at hmem
  obtain ⟨hmem, _⟩ := hmem
  rw [List.mem_map] at hmem
  obtain ⟨y, hy, hy46⟩ := hmem
  rw [List.mem_map] at hy
  obtain ⟨c, hcs, hyc⟩ := hy
  rcases hs c hcs with hc | ⟨i, hi, hc⟩
  · subst hc
    subst hyc
    simp at hy46
  · have h46 := (b64Char_ne i hi).2.1
    rw [← hc] at h46
    by_cases h43 : c = 43
    · subst h43
      subst hyc
      simp at hy46
    · by_cases h47 : c = 47
      · subst h47
        subst hyc
        simp at hy46
      · subst hyc
        rw [if_neg h43] at hy46
        rw [if_neg h47] at hy46
        exact h46 hy46

/-- The decimal digits never contain the colon separator. -/
theorem natToDecimalBytes_no_colon (n : Nat) : 58 ∉ natToDecimalBytes n := by
  intro hmem
  have := natToDigitsAux_bounds n n 58 hmem
  omega

/-- Claim C5: verifying a token produced by `signUploadPayload` against a
claimed fileId succeeds exactly when the claimed fileId equals the signed
one, in which case the embedded folderId and totalChunks come back
unchanged; a missing token, or a token without the dot separator (any
single-part malformed string), always verifies false. -/
theorem uploadToken_verify (fileId fid2 folderId : List Nat) (n : Nat)
    (hfcolon : 58 ∉ fileId) (hgcolon : 58 ∉ folderId)
    (hfb : ∀ b ∈ fileId, b < 256) (hgb : ∀ b ∈ folderId, b < 256) :
    (verifyUploadToken fid2 (some (signUploadPayload fileId folderId n)) =
        if fid2 = fileId then
          ⟨true, some fileId, some folderId, some (n : Int)⟩
        else TokenResult.invalid) ∧
      verifyUploadToken fid2 none = TokenResult.invalid ∧
      (∀ t, 46 ∉ t → verifyUploadToken fid2 (some t) = TokenResult.invalid) := by
  refine ⟨?_, rfl, ?_⟩
  · have hpbytes : ∀ b ∈ fileId ++ [58] ++ folderId ++ [58] ++
        natToDecimalBytes n, b < 256 := by
      intro b hb
      simp only [List.mem_append, List.mem_cons, List.not_mem_nil,
        or_false] at hb
      rcases hb with (((hb | hb) | hb) | hb) | hb
      · exact hfb b hb
      · omega
      · exact hgb b hb
      · omega
      · have := natToDigitsAux_bounds n n b hb
        omega
    have hchars := btoa_chars _ hpbytes
    have hscars := btoa_chars _ (hmacSHA256_bytes
      (fileId ++ [58] ++ folderId ++ [58] ++ natToDecimalBytes n))
    have hPdot := b64UrlEncode_not_dot _ hchars
    have hSdot := b64UrlEncode_not_dot _ hscars
    have hPn : b64UrlEncode (btoa (fileId ++ [58] ++ folderId ++ [58] ++
        natToDecimalBytes n)) ≠ [] :=
      b64UrlEncode_btoa_ne_nil _ (by simp) hpbytes
    have hSn : b64UrlEncode (btoa (hmacSHA256 (fileId ++ [58] ++ folderId ++
        [58] ++ natToDecimalBytes n))) ≠ [] :=
      b64UrlEncode_btoa_ne_nil _ (hmacSHA256_ne_nil _) (hmacSHA256_bytes _)
    have hP : atob (b64UrlDecode (b64UrlEncode (btoa (fileId ++ [58] ++
        folderId ++ [58] ++ natToDecimalBytes n)))) =
        some (fileId ++ [58] ++ folderId ++ [58] ++ natToDecimalBytes n) := by
      rw [b64UrlDecode_b64UrlEncode _ hchars, atob_filter, atob_btoa _ hpbytes]
    have hS : atob (b64UrlDecode (b64UrlEncode (btoa (hmacSHA256 (fileId ++
        [58] ++ folderId ++ [58] ++ natToDecimalBytes n))))) =
        some (hmacSHA256 (fileId ++ [58] ++ folderId ++ [58] ++
          natToDecimalBytes n)) := by
      rw [b64UrlDecode_b64UrlEncode _ hscars, atob_filter,
        atob_btoa _ (hmacSHA256_bytes _)]
    have hfields : splitOnByte 58 (fileId ++ [58] ++ folderId ++ [58] ++
        natToDecimalBytes n) =
        [fileId, folderId, natToDecimalBytes n] := by
      have hassoc : fileId ++ [58] ++ folderId ++ [58] ++ natToDecimalBytes n =
          fileId ++ 58 :: (folderId ++ 58 :: natToDecimalBytes n) := by
        simp
      rw [hassoc, splitOnByte_append 58 fileId _ hfcolon,
        splitOnByte_append 58 folderId _ hgcolon,
        splitOnByte_not_mem 58 _ (natToDecimalBytes_no_colon n)]
    have hsplit : splitOnByte 46 (signUploadPayload fileId folderId n) =
        [b64UrlEncode (btoa (fileId ++ [58] ++ folderId ++ [58] ++
          natToDecimalBytes n)),
         b64UrlEncode (btoa (hmacSHA256 (fileId ++ [58] ++ folderId ++ [58] ++
          natToDecimalBytes n)))] := by
      unfold signUploadPayload
      rw [List.append_assoc]
      rw [show ([46] ++ b64UrlEncode (btoa (hmacSHA256 (fileId ++ [58] ++
          folderId ++ [58] ++ natToDecimalBytes n))) : List Nat) =
        46 :: b64UrlEncode (btoa (hmacSHA256 (fileId ++ [58] ++ folderId ++
          [58] ++ natToDecimalBytes n))) from rfl]
      rw [splitOnByte_append 46 _ _ hPdot, splitOnByte_not_mem 46 _ hSdot]
    have htne : signUploadPayload fileId folderId n ≠ [] := by
      unfold signUploadPayload
      simp
    simp only [verifyUploadToken]
    rw [if_neg htne]
    rw [hsplit]
    simp only [List.getD_cons_zero, List.getElem?_cons_succ,
      List.getElem?_cons_zero]
    rw [if_neg (by exact not_or.mpr ⟨hPn, hSn⟩)]
    simp only [hP]
    rw [hfields]
    simp only [List.getD_cons_zero, List.getElem?_cons_succ,
      List.getElem?_cons_zero]
    by_cases hid : fileId = fid2
    · rw [if_neg (by simpa using hid)]
      simp only [hS]
      rw [if_pos trivial]
      rw [if_pos hid.symm]
      rw [parseIntModel_natToDecimalBytes n]
    · rw [if_pos (by simpa using hid)]
      rw [if_neg (fun hh => hid hh.symm)]
  · intro t ht
    simp only [verifyUploadToken]
    by_cases h0 : t = []
    · rw [if_pos h0]
    · rw [if_neg h0]
      rw [splitOnByte_not_mem 46 t ht]
      simp

/-- Witness for C5 at a concrete fileId, folderId and totalChunks. -/
theorem uploadToken_verify_witness :
    verifyUploadToken [97, 98] (some (signUploadPayload [97, 98] [99] 7)) =
        (if ([97, 98] : List Nat) = [97, 98] then
          ⟨true, some [97, 98], some [99], some (7 : Int)⟩
        else TokenResult.invalid) ∧
      verifyUploadToken [97, 98] none = TokenResult.invalid :=
  ⟨(uploadToken_verify [97, 98] [97, 98] [99] 7 (by decide) (by decide)
      (by decide) (by decide)).1,
    (uploadToken_verify [97, 98] [97, 98] [99] 7 (by decide) (by decide)
      (by decide) (by decide)).2.1⟩
